import Mathlib

/-!
# Verification of the implicit dataflow task engine of the parsl tutorials

The repository consists of two tutorial notebooks
(`parsl-introduction.ipynb`, `parsl-advanced-features.ipynb`) that call an
external parallel-workflow library.  The engine those notebooks exercise —
invocations, result-futures and file-futures, the dependency graph and its
`pending → ready → running → {completed | failed}` state machine, result
caching, checkpoint/restore and the elastic resource controller — is not
itself source code of this repository, so it is modelled here from the
specification and the notebooks' usage, and the specification's claims are
proved against that model.
-/

namespace ParslModel

/-- Values exchanged between invocations: integers, strings and
validated file handles (identified by path). -/
inductive Val where
  | vint : Int → Val
  | vstr : String → Val
  | vfile : String → Val
  deriving DecidableEq, Repr

/-- Modelled from the spec: the error taxonomy of §7 for the engine that is
absent from src (only its notebook callers are present).  `InvalidInvocation`
fails synchronously; the others surface only through futures. -/
inductive Err where
  | InvalidInvocation
  | DependencyFailed
  | ExecutionFailed
  | MissingOutput
  | NoEligibleExecutor
  deriving DecidableEq, Repr

/-- Modelled from the spec: state of a result-future or file-future,
`pending → resolved(value) | resolved(error)`. -/
inductive FState where
  | pending
  | resolvedOk : Val → FState
  | resolvedErr : Err → FState
  deriving DecidableEq, Repr

/-- Non-blocking status query on a future. -/
def FState.isDone : FState → Bool
  | .pending => false
  | _ => true

/-- Payload returned by the blocking wait-for-value operation once the
future has resolved. -/
def FState.payload : FState → Option (Except Err Val)
  | .pending => none
  | .resolvedOk v => some (.ok v)
  | .resolvedErr er => some (.error er)

/-- Modelled from the spec: invocation status,
`pending → ready → running → {completed | failed}` (§4.2). -/
inductive Status where
  | pending
  | ready
  | running
  | completed
  | failed
  deriving DecidableEq, Repr

/-- Reference to a future: the result-future of invocation `i`, or the
`j`-th output file-future of invocation `i`. -/
inductive FutRef where
  | res : Nat → FutRef
  | file : Nat → Nat → FutRef
  deriving DecidableEq, Repr

/-- The invocation that owns a future. -/
def FutRef.owner : FutRef → Nat
  | .res i => i
  | .file i _ => i

/-- An argument of an invocation: a literal value or a future produced by
another invocation. -/
inductive Arg where
  | lit : Val → Arg
  | fut : FutRef → Arg
  deriving DecidableEq, Repr

/-- Cache key: callable identity (name and a content hash of the body),
the ordered argument representation, and the declared outputs (§3). -/
structure CacheKey where
  fname : String
  bodyHash : Nat
  argrep : List Arg
  outs : List String
  deriving DecidableEq, Repr

/-- Modelled from the spec: one invocation of a wrapped app, as registered
with the dependency graph (§3).  The body is the underlying plain callable
(`none` = backend-reported failure); `creates` gives the files the
execution writes, used to verify declared outputs.  `runCount` is the
side-effect counter of §8: it counts executions of the body. -/
structure Task where
  args : List Arg
  outPaths : List String
  status : Status
  resFut : FState
  outFuts : List FState
  body : List Val → Option Val
  creates : List Val → List String
  key : CacheKey
  cacheEligible : Bool
  runCount : Nat

/-- Modelled from the spec: the coordinator state — the invocation table
(ids are list positions), the cache, and the count of cache entries already
flushed to durable storage by earlier checkpoints. -/
structure Engine where
  tasks : List Task
  cache : List (CacheKey × Val)
  flushed : Nat

/-- Look up the current state of a future. -/
def futGet (ts : List Task) : FutRef → Option FState
  | .res i => (ts.get? i).map Task.resFut
  | .file i j => (ts.get? i).bind fun t => t.outFuts.get? j

/-- A single argument is either a literal or a successfully resolved
future. -/
def argOk (ts : List Task) : Arg → Bool
  | .lit _ => true
  | .fut fr =>
    match futGet ts fr with
    | some (.resolvedOk _) => true
    | _ => false

/-- A single argument is a future that resolved with a failure. -/
def argFailed (ts : List Task) : Arg → Bool
  | .lit _ => false
  | .fut fr =>
    match futGet ts fr with
    | some (.resolvedErr _) => true
    | _ => false

/-- All future-valued arguments have resolved successfully. -/
def argsResolvedOk (ts : List Task) (args : List Arg) : Bool :=
  args.all (argOk ts)

/-- Some future-valued argument has resolved with a failure. -/
def anyDepFailed (ts : List Task) (args : List Arg) : Bool :=
  args.any (argFailed ts)

/-- Resolve an argument to a plain value (substituting resolved values in
place of future objects). -/
def resolveArg (ts : List Task) : Arg → Option Val
  | .lit v => some v
  | .fut fr =>
    match futGet ts fr with
    | some (.resolvedOk v) => some v
    | _ => none

/-- Resolve a whole argument list. -/
def resolveArgs (ts : List Task) : List Arg → Option (List Val)
  | [] => some []
  | a :: rest =>
    match resolveArg ts a, resolveArgs ts rest with
    | some v, some vs => some (v :: vs)
    | _, _ => none

/-- Resolve the output file-futures after a successful completion:
existence of each declared output is checked against the set of files the
execution actually created; a missing file resolves that file-future with
a `MissingOutput` error. -/
def resolveOutputs (paths : List String) (created : List String) : List FState :=
  paths.map fun p =>
    if p ∈ created then .resolvedOk (.vfile p) else .resolvedErr .MissingOutput

/-- Cache lookup (§4.4). -/
def cacheLookup (c : List (CacheKey × Val)) (k : CacheKey) : Option Val :=
  (c.find? fun e => e.1 = k).map Prod.snd

/-- Cache store (§4.4): entries are immutable once written — a key that is
already present is never overwritten. -/
def cacheStore (c : List (CacheKey × Val)) (k : CacheKey) (v : Val) :
    List (CacheKey × Val) :=
  match cacheLookup c k with
  | some _ => c
  | none => c ++ [(k, v)]

/-- Total number of body executions across all invocations (the global
side-effect counter). -/
def totalRuns (e : Engine) : Nat :=
  (e.tasks.map Task.runCount).sum

/-- State produced by the `pending → ready` transition of invocation `i`. -/
def readyUpd (e : Engine) (i : Nat) (t : Task) : Engine :=
  { e with tasks := e.tasks.set i { t with status := .ready } }

/-- State produced by the short-circuit `pending → failed` transition of
invocation `i` when one of its dependencies resolved with a failure: the
result-future and every output file-future resolve with
`DependencyFailed`, and the body is never run. -/
def depFailUpd (e : Engine) (i : Nat) (t : Task) : Engine :=
  { e with
    tasks := e.tasks.set i
      { t with
        status := .failed
        resFut := .resolvedErr .DependencyFailed
        outFuts := t.outFuts.map fun _ => .resolvedErr .DependencyFailed } }

/-- State produced by the `ready → running` transition of invocation `i`
(the executor accepts it for dispatch). -/
def runUpd (e : Engine) (i : Nat) (t : Task) : Engine :=
  { e with tasks := e.tasks.set i { t with status := .running } }

/-- State produced by the `running → completed` transition of invocation
`i`: the body has executed on the resolved argument values and returned
`v`; the result-future resolves with `v`, each declared output file is
verified against the files actually created before its file-future is
resolved, and the result is written to the cache when the invocation is
cache-eligible. -/
def completeUpd (e : Engine) (i : Nat) (t : Task) (vals : List Val) (v : Val) :
    Engine :=
  { e with
    tasks := e.tasks.set i
      { t with
        status := .completed
        resFut := .resolvedOk v
        outFuts := resolveOutputs t.outPaths (t.creates vals)
        runCount := t.runCount + 1 }
    cache := if t.cacheEligible then cacheStore e.cache t.key v else e.cache }

/-- State produced by the `running → failed` transition of invocation `i`
on a backend-reported error: the result-future and every output
file-future resolve with `ExecutionFailed`. -/
def runFailUpd (e : Engine) (i : Nat) (t : Task) : Engine :=
  { e with
    tasks := e.tasks.set i
      { t with
        status := .failed
        resFut := .resolvedErr .ExecutionFailed
        outFuts := t.outFuts.map fun _ => .resolvedErr .ExecutionFailed
        runCount := t.runCount + 1 } }

/-- Modelled from the spec: one serialized coordinator transition of the
dependency graph and ready-queue state machine (§4.2); the scheduling
coordinator is logically single-threaded, so transitions interleave
atomically. -/
inductive Step : Engine → Engine → Prop where
  | to_ready (e : Engine) (i : Nat) (t : Task) :
      e.tasks.get? i = some t → t.status = .pending →
      argsResolvedOk e.tasks t.args = true →
      Step e (readyUpd e i t)
  | dep_fail (e : Engine) (i : Nat) (t : Task) :
      e.tasks.get? i = some t → t.status = .pending →
      anyDepFailed e.tasks t.args = true →
      Step e (depFailUpd e i t)
  | to_running (e : Engine) (i : Nat) (t : Task) :
      e.tasks.get? i = some t → t.status = .ready →
      Step e (runUpd e i t)
  | complete (e : Engine) (i : Nat) (t : Task) (vals : List Val) (v : Val) :
      e.tasks.get? i = some t → t.status = .running →
      resolveArgs e.tasks t.args = some vals → t.body vals = some v →
      Step e (completeUpd e i t vals v)
  | run_fail (e : Engine) (i : Nat) (t : Task) (vals : List Val) :
      e.tasks.get? i = some t → t.status = .running →
      resolveArgs e.tasks t.args = some vals → t.body vals = none →
      Step e (runFailUpd e i t)

/-- Reflexive-transitive closure of coordinator transitions. -/
inductive Reach : Engine → Engine → Prop where
  | refl (e : Engine) : Reach e e
  | tail {e1 e2 e3 : Engine} : Reach e1 e2 → Step e2 e3 → Reach e1 e3

/-- A quiescent state: no coordinator transition applies. -/
def Quiet (e : Engine) : Prop := ∀ e2 : Engine, ¬ Step e e2

/-- An invocation in its initial (just registered) state: `pending`, all
of its futures pending, body never run, one file-future per declared
output path. -/
def taskInit (t : Task) : Bool :=
  decide (t.status = .pending) && decide (t.resFut = .pending) &&
    t.outFuts.all (fun f => decide (f = .pending)) &&
    decide (t.runCount = 0) && decide (t.outFuts.length = t.outPaths.length)

/-- An initial coordinator state: every registered invocation is in its
initial state. -/
def initOk (e : Engine) : Bool := e.tasks.all taskInit

/-- Per-invocation coordinator invariant: futures, the side-effect
counter and the status agree at every reachable state. -/
def TaskInv (ts : List Task) (t : Task) : Prop :=
  t.outFuts.length = t.outPaths.length ∧
  ((t.status = .pending ∨ t.status = .ready ∨ t.status = .running) →
    t.resFut = .pending ∧ (∀ f ∈ t.outFuts, f = .pending) ∧ t.runCount = 0) ∧
  ((t.status = .ready ∨ t.status = .running) →
    argsResolvedOk ts t.args = true) ∧
  (t.status = .completed →
    ∃ vals v, resolveArgs ts t.args = some vals ∧ t.body vals = some v ∧
      t.resFut = .resolvedOk v ∧
      t.outFuts = resolveOutputs t.outPaths (t.creates vals) ∧
      t.runCount = 1) ∧
  (t.status = .failed →
    (t.resFut = .resolvedErr .DependencyFailed ∧ t.runCount = 0 ∧
      (∀ f ∈ t.outFuts, f = .resolvedErr .DependencyFailed)) ∨
    (t.resFut = .resolvedErr .ExecutionFailed ∧ t.runCount = 1 ∧
      (∃ vals, resolveArgs ts t.args = some vals ∧ t.body vals = none) ∧
      (∀ f ∈ t.outFuts, f = .resolvedErr .ExecutionFailed)))

/-- Coordinator invariant: every registered invocation satisfies its
per-invocation invariant. -/
def Inv (e : Engine) : Prop :=
  ∀ i t, e.tasks.get? i = some t → TaskInv e.tasks t

/-- Invocation `b` directly depends on invocation `a`: some argument of
`b` is a future produced by `a` (and that future exists). -/
def DependsOn (ts : List Task) (b a : Nat) : Prop :=
  ∃ tb, ts.get? b = some tb ∧
    ∃ fr, Arg.fut fr ∈ tb.args ∧ fr.owner = a ∧ (futGet ts fr).isSome = true

/-- `DepChain ts a b`: invocation `b` transitively depends on invocation
`a` through a chain of future-valued arguments. -/
inductive DepChain (ts : List Task) : Nat → Nat → Prop where
  | single {a b : Nat} : DependsOn ts b a → DepChain ts a b
  | extend {a b c : Nat} : DepChain ts a b → DependsOn ts c b → DepChain ts a c

/-- Modelled from the spec: a wrapped app (§4.1), absent from src — the
callable identity (name plus a content hash of the body, so that a
rewritten body changes the cache key), the underlying plain callable, the
files its execution creates, and the cache-eligibility flag. -/
structure AppDef where
  name : String
  bodyHash : Nat
  body : List Val → Option Val
  creates : List Val → List String
  cacheEligible : Bool

/-- Deterministic cache key of an invocation: callable identity, ordered
argument representation (structural equality) and declared outputs. -/
def mkKey (app : AppDef) (args : List Arg) (outs : List String) : CacheKey :=
  { fname := app.name, bodyHash := app.bodyHash, argrep := args, outs := outs }

/-- Well-formedness of the declared output path list; a malformed list
(an empty path) fails invocation construction synchronously. -/
def validOutputs (outs : List String) : Bool :=
  outs.all fun p => !p.isEmpty

/-- The invocation record registered by a normal (non-cache-hit) call:
`pending`, with a pending result-future and one pending file-future per
declared output. -/
def pendingTask (app : AppDef) (args : List Arg) (outs : List String) : Task :=
  { args := args
    outPaths := outs
    status := .pending
    resFut := .pending
    outFuts := outs.map fun _ => .pending
    body := app.body
    creates := app.creates
    key := mkKey app args outs
    cacheEligible := app.cacheEligible
    runCount := 0 }

/-- The invocation record produced by the synchronous cache-hit fast
path: `completed` without dispatch, result-future already resolved with
the cached value, declared outputs treated as already materialized, and
the body not executed. -/
def cachedTask (app : AppDef) (args : List Arg) (outs : List String)
    (v : Val) : Task :=
  { args := args
    outPaths := outs
    status := .completed
    resFut := .resolvedOk v
    outFuts := outs.map fun p => .resolvedOk (.vfile p)
    body := app.body
    creates := app.creates
    key := mkKey app args outs
    cacheEligible := app.cacheEligible
    runCount := 0 }

/-- Modelled from the spec: calling a wrapped app (§4.1).  Malformed
output lists fail synchronously with `InvalidInvocation`; otherwise the
call returns immediately with the id of a new invocation (futures
`FutRef.res id` and `FutRef.file id j`), either completed synchronously
from the cache or registered `pending` for asynchronous execution.  The
body is never executed by the call itself. -/
def invoke (e : Engine) (app : AppDef) (args : List Arg)
    (outs : List String) : Except Err (Engine × Nat) :=
  if validOutputs outs then
    match (if app.cacheEligible then cacheLookup e.cache (mkKey app args outs)
           else none) with
    | some v =>
      .ok ({ e with tasks := e.tasks ++ [cachedTask app args outs v] },
        e.tasks.length)
    | none =>
      .ok ({ e with tasks := e.tasks ++ [pendingTask app args outs] },
        e.tasks.length)
  else
    .error .InvalidInvocation

/-- Durable checkpoint storage: an ordered sequence of flushed segments. -/
abbrev Store : Type := List (List (CacheKey × Val))

/-- Modelled from the spec: `checkpoint()` (§4.5) — flushes the cache
entries written since the last checkpoint to durable storage as one new
segment and returns its token. -/
def checkpointOp (e : Engine) (store : Store) : Engine × Store × Nat :=
  ({ e with flushed := e.cache.length },
   store ++ [e.cache.drop e.flushed],
   store.length)

/-- Replay a list of checkpoint records into a cache. -/
def replay (c : List (CacheKey × Val)) (seg : List (CacheKey × Val)) :
    List (CacheKey × Val) :=
  seg.foldl (fun acc kv => cacheStore acc kv.1 kv.2) c

/-- Modelled from the spec: `restore(tokens)` (§4.5) — replays all named
segments, in order, into the coordinator's cache before any new
invocation executes. -/
def restore (e : Engine) (store : Store) (toks : List Nat) : Engine :=
  { e with
    cache := (toks.filterMap (List.get? store)).foldl replay e.cache }

/-- Modelled from the spec: the elastic resource controller (§4.6),
absent from src — computes a target resource-block count between
`minBlocks` and `maxBlocks` from the ready-queue depth, scaled by the
`parallelism` coefficient. -/
def targetBlocks (minBlocks maxBlocks : Nat) (parallelism : ℚ)
    (readyDepth : Nat) : Nat :=
  max minBlocks (min maxBlocks ⌈parallelism * readyDepth⌉₊)

/-- A decidable check for `DependsOn`. -/
def dependsOnB (ts : List Task) (b a : Nat) : Bool :=
  match ts.get? b with
  | some tb =>
    tb.args.any fun x =>
      match x with
      | .fut fr => decide (fr.owner = a) && (futGet ts fr).isSome
      | .lit _ => false
  | none => false

/-- A decidable check that every invocation has terminated. -/
def allTerminal (e : Engine) : Bool :=
  e.tasks.all fun t =>
    decide (t.status = .completed) || decide (t.status = .failed)

/-- Sequential workflow of the introduction notebook: `generate(10)`
produces a number (modelled as 7) and `save` writes it to `output.txt`. -/
def genTask : Task :=
  { args := [Arg.lit (.vint 10)]
    outPaths := []
    status := .pending
    resFut := .pending
    outFuts := []
    body := fun _ => some (.vint 7)
    creates := fun _ => []
    key := { fname := "generate", bodyHash := 1,
             argrep := [Arg.lit (.vint 10)], outs := [] }
    cacheEligible := false
    runCount := 0 }

/-- The dependent `save` invocation: its argument is the result-future of
`generate` (invocation 0). -/
def saveTask : Task :=
  { args := [Arg.fut (.res 0)]
    outPaths := ["output.txt"]
    status := .pending
    resFut := .pending
    outFuts := [.pending]
    body := fun vs => vs.get? 0
    creates := fun _ => ["output.txt"]
    key := { fname := "save", bodyHash := 2,
             argrep := [Arg.fut (.res 0)], outs := ["output.txt"] }
    cacheEligible := false
    runCount := 0 }

def wE0 : Engine := { tasks := [genTask, saveTask], cache := [], flushed := 0 }

def wE1 : Engine := readyUpd wE0 0 genTask

def genR : Task := { genTask with status := .ready }

def wE2 : Engine := runUpd wE1 0 genR

def genRun : Task := { genR with status := .running }

def wE3 : Engine := completeUpd wE2 0 genRun [Val.vint 10] (.vint 7)

def wE4 : Engine := readyUpd wE3 1 saveTask

def saveR : Task := { saveTask with status := .ready }

def wE5 : Engine := runUpd wE4 1 saveR

def saveRun : Task := { saveR with status := .running }

def wE6 : Engine := completeUpd wE5 1 saveRun [Val.vint 7] (.vint 7)

/-- The `save` invocation after completion. -/
def saveDone : Task :=
  { saveRun with
    status := .completed
    resFut := .resolvedOk (.vint 7)
    outFuts := resolveOutputs saveRun.outPaths (saveRun.creates [Val.vint 7])
    runCount := saveRun.runCount + 1 }

/-- Failure-propagation chain: invocation 0 fails at the backend;
invocation 1 consumes its result-future, invocation 2 consumes
invocation 1's output file-future. -/
def failTask : Task :=
  { args := []
    outPaths := []
    status := .pending
    resFut := .pending
    outFuts := []
    body := fun _ => none
    creates := fun _ => []
    key := { fname := "fgen", bodyHash := 3, argrep := [], outs := [] }
    cacheEligible := false
    runCount := 0 }

def midTask : Task :=
  { args := [Arg.fut (.res 0)]
    outPaths := ["f1.txt"]
    status := .pending
    resFut := .pending
    outFuts := [.pending]
    body := fun vs => vs.get? 0
    creates := fun _ => ["f1.txt"]
    key := { fname := "fmid", bodyHash := 4,
             argrep := [Arg.fut (.res 0)], outs := ["f1.txt"] }
    cacheEligible := false
    runCount := 0 }

def endTask : Task :=
  { args := [Arg.fut (.file 1 0)]
    outPaths := []
    status := .pending
    resFut := .pending
    outFuts := []
    body := fun vs => vs.get? 0
    creates := fun _ => []
    key := { fname := "fend", bodyHash := 5,
             argrep := [Arg.fut (.file 1 0)], outs := [] }
    cacheEligible := false
    runCount := 0 }

def fE0 : Engine :=
  { tasks := [failTask, midTask, endTask], cache := [], flushed := 0 }

def fE1 : Engine := readyUpd fE0 0 failTask

def failR : Task := { failTask with status := .ready }

def fE2 : Engine := runUpd fE1 0 failR

def failRun : Task := { failR with status := .running }

def fE3 : Engine := runFailUpd fE2 0 failRun

/-- Invocation 0 after its backend failure. -/
def failDone : Task :=
  { failRun with
    status := .failed
    resFut := .resolvedErr .ExecutionFailed
    outFuts := failRun.outFuts.map fun _ => .resolvedErr .ExecutionFailed
    runCount := failRun.runCount + 1 }

def fE4 : Engine := depFailUpd fE3 1 midTask

def fE5 : Engine := depFailUpd fE4 2 endTask

/-- Missing-output scenario (`slowecho` with declared output
`hello1.txt` that the command never creates). -/
def echoTask : Task :=
  { args := [Arg.lit (.vstr "Hello World!")]
    outPaths := ["hello1.txt"]
    status := .pending
    resFut := .pending
    outFuts := [.pending]
    body := fun _ => some (.vint 0)
    creates := fun _ => []
    key := { fname := "slowecho", bodyHash := 6,
             argrep := [Arg.lit (.vstr "Hello World!")],
             outs := ["hello1.txt"] }
    cacheEligible := false
    runCount := 0 }

def mE0 : Engine := { tasks := [echoTask], cache := [], flushed := 0 }

def mE1 : Engine := readyUpd mE0 0 echoTask

def echoR : Task := { echoTask with status := .ready }

def mE2 : Engine := runUpd mE1 0 echoR

def echoRun : Task := { echoR with status := .running }

/-- A coordinator with no invocations and an empty cache. -/
def emptyE : Engine := { tasks := [], cache := [], flushed := 0 }

/-- The `hello` python app of the introduction notebook. -/
def helloApp : AppDef :=
  { name := "hello", bodyHash := 7
    body := fun _ => some (.vstr "Hello World!")
    creates := fun _ => []
    cacheEligible := false }

/-- The cache-eligible `slow_message` app of the advanced-features
notebook. -/
def msgApp : AppDef :=
  { name := "slow_message", bodyHash := 8
    body := fun vs => vs.get? 0
    creates := fun _ => []
    cacheEligible := true }

def msgArgs : List Arg := [Arg.lit (.vstr "Hello World")]

/-- Coordinator state after the first successful `slow_message` call:
its result is in the cache. -/
def cE : Engine :=
  { tasks := []
    cache := [(mkKey msgApp msgArgs [], .vstr "Hello World")]
    flushed := 0 }

/-- The cache-eligible `slow_double` app of the checkpointing example. -/
def dApp : AppDef :=
  { name := "slow_double", bodyHash := 9
    body := fun vs =>
      match vs with
      | [.vint x] => some (.vint (2 * x))
      | _ => none
    creates := fun _ => []
    cacheEligible := true }

def dk (n : Int) : CacheKey := mkKey dApp [Arg.lit (.vint n)] []

/-- Coordinator state after the first run of the checkpoint example:
the five completed `slow_double i` results are cached, none flushed. -/
def cpE : Engine :=
  { tasks := []
    cache := [(dk 0, .vint 0), (dk 1, .vint 2), (dk 2, .vint 4),
              (dk 3, .vint 6), (dk 4, .vint 8)]
    flushed := 0 }

def cpStore : Store := (checkpointOp cpE []).2.1

def cpTok : Nat := (checkpointOp cpE []).2.2

/-- The fresh coordinator after `restore` of the checkpoint segment. -/
def restoredE : Engine := restore emptyE cpStore [cpTok]

lemma get?_set_self {l : List Task} {i : Nat} {t : Task} (t2 : Task)
    (h : l.get? i = some t) : (l.set i t2).get? i = some t2 := by
  rcases List.get?_eq_some.mp h with ⟨hlt, _⟩
  exact List.get?_set_eq_of_lt t2 hlt

lemma initOk_inv {e : Engine} (h : initOk e = true) : Inv e := by
  intro i t hget
  have hmem : t ∈ e.tasks := List.get?_mem hget
  have ht : taskInit t = true := List.all_eq_true.mp h t hmem
  simp only [taskInit, Bool.and_eq_true, decide_eq_true_eq,
    List.all_eq_true] at ht
  obtain ⟨⟨⟨⟨hst, hres⟩, houts⟩, hrc⟩, hlen⟩ := ht
  refine ⟨hlen, fun _ => ⟨hres, fun f hf => by simpa using houts f hf, hrc⟩,
    ?_, ?_, ?_⟩
  · rintro (h1 | h1) <;> rw [hst] at h1 <;> cases h1
  · intro h1; rw [hst] at h1; cases h1
  · intro h1; rw [hst] at h1; cases h1

lemma get?_set_of_ne (l : List Task) (t2 : Task) {i j : Nat} (h : j ≠ i) :
    (l.set i t2).get? j = l.get? j :=
  List.get?_set_ne t2 l fun hh => h hh.symm

lemma futGet_set_ne (l : List Task) (t2 : Task) {i : Nat} {fr : FutRef}
    (h : fr.owner ≠ i) : futGet (l.set i t2) fr = futGet l fr := by
  match fr with
  | .res j =>
    have hj : j ≠ i := h
    simp only [futGet]
    rw [get?_set_of_ne l t2 hj]
  | .file j k =>
    have hj : j ≠ i := h
    simp only [futGet]
    rw [get?_set_of_ne l t2 hj]

lemma fut_mono_aux {e1 : Engine} (hInv : Inv e1) {i : Nat} {t : Task}
    (t2 : Task) (hgt : e1.tasks.get? i = some t)
    (hlive : t.status = .pending ∨ t.status = .ready ∨ t.status = .running)
    {fr : FutRef} {st : FState} (hget : futGet e1.tasks fr = some st)
    (hne : st ≠ .pending) : futGet (e1.tasks.set i t2) fr = some st := by
  have hpend := (hInv i t hgt).2.1 hlive
  by_cases ho : fr.owner = i
  · exfalso
    match fr, ho with
    | .res j, ho =>
      have hj : j = i := ho
      subst hj
      have h2 : (e1.tasks.get? j).map Task.resFut = some st := hget
      rw [hgt] at h2
      have hst : t.resFut = st := Option.some_inj.mp h2
      exact hne (by rw [← hst]; exact hpend.1)
    | .file j k, ho =>
      have hj : j = i := ho
      subst hj
      have h2 : (e1.tasks.get? j).bind (fun u => u.outFuts.get? k) = some st :=
        hget
      rw [hgt] at h2
      have h3 : t.outFuts.get? k = some st := h2
      exact hne (hpend.2.1 st (List.get?_mem h3))
  · rw [futGet_set_ne _ _ ho]
    exact hget

/-- The status of the stepped invocation is live (`pending`, `ready` or
`running`) in the pre-state, so by the invariant all of its futures are
still pending there; hence a step never touches a resolved future. -/
lemma fut_mono_step {e1 e2 : Engine} (hInv : Inv e1) (hs : Step e1 e2)
    {fr : FutRef} {st : FState} (hget : futGet e1.tasks fr = some st)
    (hne : st ≠ .pending) : futGet e2.tasks fr = some st := by
  cases hs with
  | to_ready i t hgt hst _ =>
    exact fut_mono_aux hInv _ hgt (Or.inl hst) hget hne
  | dep_fail i t hgt hst _ =>
    exact fut_mono_aux hInv _ hgt (Or.inl hst) hget hne
  | to_running i t hgt hst =>
    exact fut_mono_aux hInv _ hgt (Or.inr (Or.inl hst)) hget hne
  | complete i t vals v hgt hst _ _ =>
    exact fut_mono_aux hInv _ hgt (Or.inr (Or.inr hst)) hget hne
  | run_fail i t vals hgt hst _ _ =>
    exact fut_mono_aux hInv _ hgt (Or.inr (Or.inr hst)) hget hne

lemma argOk_mono {e1 e2 : Engine} (hInv : Inv e1) (hs : Step e1 e2)
    {a : Arg} (h : argOk e1.tasks a = true) : argOk e2.tasks a = true := by
  match a with
  | .lit v => rfl
  | .fut fr =>
    cases hf : futGet e1.tasks fr with
    | none => simp [argOk, hf] at h
    | some st =>
      cases st with
      | pending => simp [argOk, hf] at h
      | resolvedOk v =>
        have h2 := fut_mono_step hInv hs hf (by simp)
        simp only [argOk, h2]
      | resolvedErr er => simp [argOk, hf] at h

lemma argsResolvedOk_mono {e1 e2 : Engine} (hInv : Inv e1) (hs : Step e1 e2)
    {args : List Arg} (h : argsResolvedOk e1.tasks args = true) :
    argsResolvedOk e2.tasks args = true := by
  simp only [argsResolvedOk, List.all_eq_true] at h ⊢
  exact fun a ha => argOk_mono hInv hs (h a ha)

lemma resolveArg_mono {e1 e2 : Engine} (hInv : Inv e1) (hs : Step e1 e2)
    {a : Arg} {v : Val} (h : resolveArg e1.tasks a = some v) :
    resolveArg e2.tasks a = some v := by
  match a with
  | .lit w => exact h
  | .fut fr =>
    cases hf : futGet e1.tasks fr with
    | none => simp [resolveArg, hf] at h
    | some st =>
      cases st with
      | pending => simp [resolveArg, hf] at h
      | resolvedOk w =>
        have h2 := fut_mono_step hInv hs hf (by simp)
        simp only [resolveArg, hf] at h
        simp only [resolveArg, h2, h]
      | resolvedErr er => simp [resolveArg, hf] at h

lemma resolveArgs_mono {e1 e2 : Engine} (hInv : Inv e1) (hs : Step e1 e2) :
    ∀ {args : List Arg} {vals : List Val},
      resolveArgs e1.tasks args = some vals →
      resolveArgs e2.tasks args = some vals := by
  intro args
  induction args with
  | nil => intro vals h; exact h
  | cons a rest ih =>
    intro vals h
    simp only [resolveArgs] at h ⊢
    cases ha : resolveArg e1.tasks a with
    | none => rw [ha] at h; simp at h
    | some v =>
      rw [ha] at h
      cases hr : resolveArgs e1.tasks rest with
      | none => rw [hr] at h; simp at h
      | some vs =>
        rw [hr] at h
        rw [resolveArg_mono hInv hs ha, ih hr]
        exact h

lemma taskInv_mono {e1 e2 : Engine} (hInv : Inv e1) (hs : Step e1 e2)
    {t : Task} (h : TaskInv e1.tasks t) : TaskInv e2.tasks t := by
  obtain ⟨h1, h2, h3, h4, h5⟩ := h
  refine ⟨h1, h2, fun hl => argsResolvedOk_mono hInv hs (h3 hl), ?_, ?_⟩
  · intro hc
    obtain ⟨vals, v, hra, hb, hres, ho, hrc⟩ := h4 hc
    exact ⟨vals, v, resolveArgs_mono hInv hs hra, hb, hres, ho, hrc⟩
  · intro hf
    rcases h5 hf with h | ⟨hr, hc, ⟨vals, hra, hb⟩, ho⟩
    · exact Or.inl h
    · exact Or.inr ⟨hr, hc, ⟨vals, resolveArgs_mono hInv hs hra, hb⟩, ho⟩

lemma not_live_failed {s : Status} (h : s = Status.failed) :
    ¬ (s = .pending ∨ s = .ready ∨ s = .running) := by
  subst h
  rintro (h | h | h) <;> exact Status.noConfusion h

lemma not_live_completed {s : Status} (h : s = Status.completed) :
    ¬ (s = .pending ∨ s = .ready ∨ s = .running) := by
  subst h
  rintro (h | h | h) <;> exact Status.noConfusion h

/-- Every coordinator transition preserves the invariant. -/
lemma inv_step {e1 e2 : Engine} (hInv : Inv e1) (hs : Step e1 e2) : Inv e2 := by
  have frame : ∀ (i : Nat) (t2 : Task) (e3 : Engine),
      e3.tasks = e1.tasks.set i t2 → Step e1 e3 → TaskInv e3.tasks t2 →
      Inv e3 := by
    intro i t2 e3 he hstep ht2
    intro j t3 hget3
    rw [he] at hget3
    by_cases hji : j = i
    · subst hji
      rcases List.get?_eq_some.mp hget3 with ⟨hlt, _⟩
      rw [List.length_set] at hlt
      have : (e1.tasks.set j t2).get? j = some t2 :=
        List.get?_set_eq_of_lt t2 hlt
      rw [this] at hget3
      obtain rfl := Option.some_inj.mp hget3
      exact ht2
    · rw [get?_set_of_ne _ _ hji] at hget3
      exact taskInv_mono hInv hstep (hInv j t3 hget3)
  cases hs with
  | to_ready i t hgt hst hargs =>
    have hstep := Step.to_ready e1 i t hgt hst hargs
    refine frame i _ _ rfl hstep ?_
    obtain ⟨h1, h2, _, _, _⟩ := hInv i t hgt
    have hp := h2 (Or.inl hst)
    refine ⟨h1, fun _ => hp, ?_, ?_, ?_⟩
    · intro _
      exact argsResolvedOk_mono hInv hstep hargs
    · intro hc
      exact absurd hc (by simp)
    · intro hf
      exact absurd hf (by simp)
  | dep_fail i t hgt hst hdep =>
    have hstep := Step.dep_fail e1 i t hgt hst hdep
    refine frame i _ _ rfl hstep ?_
    obtain ⟨h1, h2, _, _, _⟩ := hInv i t hgt
    have hp := h2 (Or.inl hst)
    refine ⟨by simpa using h1, ?_, ?_, ?_, ?_⟩
    · intro hl
      exact absurd hl (not_live_failed rfl)
    · intro hl
      rcases hl with hl | hl <;> exact Status.noConfusion hl
    · intro hc
      exact absurd hc (by simp)
    · intro _
      refine Or.inl ⟨rfl, hp.2.2, ?_⟩
      intro f hf
      rcases List.mem_map.mp hf with ⟨g, _, hg⟩
      exact hg.symm
  | to_running i t hgt hst =>
    have hstep := Step.to_running e1 i t hgt hst
    refine frame i _ _ rfl hstep ?_
    obtain ⟨h1, h2, h3, _, _⟩ := hInv i t hgt
    have hp := h2 (Or.inr (Or.inl hst))
    have hargs := h3 (Or.inl hst)
    refine ⟨h1, fun _ => hp, ?_, ?_, ?_⟩
    · intro _
      exact argsResolvedOk_mono hInv hstep hargs
    · intro hc
      exact absurd hc (by simp)
    · intro hf
      exact absurd hf (by simp)
  | complete i t vals v hgt hst hra hb =>
    have hstep := Step.complete e1 i t vals v hgt hst hra hb
    refine frame i _ _ rfl hstep ?_
    obtain ⟨h1, h2, _, _, _⟩ := hInv i t hgt
    have hp := h2 (Or.inr (Or.inr hst))
    refine ⟨?_, ?_, ?_, ?_, ?_⟩
    · simp [resolveOutputs]
    · intro hl
      exact absurd hl (not_live_completed rfl)
    · intro hl
      rcases hl with hl | hl <;> exact Status.noConfusion hl
    · intro _
      refine ⟨vals, v, resolveArgs_mono hInv hstep hra, hb, rfl, rfl, ?_⟩
      simp [hp.2.2]
    · intro hf
      exact absurd hf (by simp)
  | run_fail i t vals hgt hst hra hb =>
    have hstep := Step.run_fail e1 i t vals hgt hst hra hb
    refine frame i _ _ rfl hstep ?_
    obtain ⟨h1, h2, _, _, _⟩ := hInv i t hgt
    have hp := h2 (Or.inr (Or.inr hst))
    refine ⟨by simpa using h1, ?_, ?_, ?_, ?_⟩
    · intro hl
      exact absurd hl (not_live_failed rfl)
    · intro hl
      rcases hl with hl | hl <;> exact Status.noConfusion hl
    · intro hc
      exact absurd hc (by simp)
    · intro _
      refine Or.inr ⟨rfl, by simp [hp.2.2], ?_, ?_⟩
      · exact ⟨vals, resolveArgs_mono hInv hstep hra, hb⟩
      · intro f hf
        rcases List.mem_map.mp hf with ⟨g, _, hg⟩
        exact hg.symm

/-- The invariant holds at every state reachable from an initial state. -/
lemma inv_reach {e1 e2 : Engine} (h0 : initOk e1 = true) (hr : Reach e1 e2) :
    Inv e2 := by
  induction hr with
  | refl => exact initOk_inv h0
  | tail _ hs ih => exact inv_step ih hs

/-- A resolved future keeps its resolution across any run of coordinator
transitions. -/
lemma fut_mono_reach {e1 e2 : Engine} (h0 : initOk e1 = true)
    (hr : Reach e1 e2) {fr : FutRef} {st : FState}
    (hget : futGet e1.tasks fr = some st) (hne : st ≠ .pending) :
    futGet e2.tasks fr = some st := by
  induction hr with
  | refl => exact hget
  | tail hr2 hs ih => exact fut_mono_step (inv_reach h0 hr2) hs ih hne

lemma resolveArgs_mem {ts : List Task} :
    ∀ {args : List Arg} {vals : List Val}, resolveArgs ts args = some vals →
      ∀ a ∈ args, ∃ v, resolveArg ts a = some v := by
  intro args
  induction args with
  | nil => intro vals _ a ha; exact absurd ha (List.not_mem_nil a)
  | cons x rest ih =>
    intro vals h a ha
    simp only [resolveArgs] at h
    cases hx : resolveArg ts x with
    | none => rw [hx] at h; simp at h
    | some v =>
      rw [hx] at h
      cases hr : resolveArgs ts rest with
      | none => rw [hr] at h; simp at h
      | some vs =>
        rcases List.mem_cons.mp ha with rfl | ha2
        · exact ⟨v, hx⟩
        · exact ih hr a ha2

/-- If every invocation has terminated (`completed` or `failed`), the
coordinator is quiescent. -/
lemma quiet_of_terminal {e : Engine}
    (h : ∀ i t, e.tasks.get? i = some t →
      t.status = .completed ∨ t.status = .failed) : Quiet e := by
  intro e2 hs
  cases hs with
  | to_ready i t hgt hst _ =>
    rcases h i t hgt with hc | hc <;> (rw [hst] at hc; exact Status.noConfusion hc)
  | dep_fail i t hgt hst _ =>
    rcases h i t hgt with hc | hc <;> (rw [hst] at hc; exact Status.noConfusion hc)
  | to_running i t hgt hst =>
    rcases h i t hgt with hc | hc <;> (rw [hst] at hc; exact Status.noConfusion hc)
  | complete i t vals v hgt hst _ _ =>
    rcases h i t hgt with hc | hc <;> (rw [hst] at hc; exact Status.noConfusion hc)
  | run_fail i t vals hgt hst _ _ =>
    rcases h i t hgt with hc | hc <;> (rw [hst] at hc; exact Status.noConfusion hc)

/-- In an invariant state, a future of a failed invocation is resolved
with an error. -/
lemma failed_fut_err {e : Engine} (hInv : Inv e) {a : Nat} {ta : Task}
    (hga : e.tasks.get? a = some ta) (hfa : ta.status = .failed)
    {fr : FutRef} (ho : fr.owner = a) {st : FState}
    (hst : futGet e.tasks fr = some st) : ∃ er, st = .resolvedErr er := by
  have h5 := (hInv a ta hga).2.2.2.2 hfa
  have hres : ∃ er, ta.resFut = .resolvedErr er ∧
      ∀ f ∈ ta.outFuts, f = FState.resolvedErr er := by
    rcases h5 with ⟨h1, _, h3⟩ | ⟨h1, _, _, h3⟩
    · exact ⟨_, h1, h3⟩
    · exact ⟨_, h1, h3⟩
  obtain ⟨er, her, hall⟩ := hres
  match fr, ho with
  | .res j, ho =>
    have hj : j = a := ho
    subst hj
    have h2 : (e.tasks.get? j).map Task.resFut = some st := hst
    rw [hga] at h2
    have : ta.resFut = st := Option.some_inj.mp h2
    exact ⟨er, by rw [← this, her]⟩
  | .file j k, ho =>
    have hj : j = a := ho
    subst hj
    have h2 : (e.tasks.get? j).bind (fun u => u.outFuts.get? k) = some st := hst
    rw [hga] at h2
    have h3 : ta.outFuts.get? k = some st := h2
    exact ⟨er, hall st (List.get?_mem h3)⟩

/-- In an invariant state, if a future of invocation `a` has resolved
successfully then `a` has completed: its dependents observe resolution
only after `a` finished. -/
lemma owner_completed {e : Engine} (hInv : Inv e) {fr : FutRef} {v : Val}
    (hst : futGet e.tasks fr = some (.resolvedOk v)) {ta : Task}
    (hga : e.tasks.get? fr.owner = some ta) : ta.status = .completed := by
  have hti := hInv fr.owner ta hga
  cases hstat : ta.status with
  | completed => rfl
  | pending | ready | running =>
    exfalso
    have hpend := hti.2.1 (by rw [hstat]; simp)
    match fr, hga, hst with
    | .res j, hga, hst =>
      have h2 : (e.tasks.get? j).map Task.resFut = some (FState.resolvedOk v) :=
        hst
      rw [show e.tasks.get? j = some ta from hga] at h2
      have h3 := Option.some_inj.mp h2
      rw [hpend.1] at h3
      exact FState.noConfusion h3
    | .file j k, hga, hst =>
      have h2 : (e.tasks.get? j).bind (fun u => u.outFuts.get? k) =
          some (FState.resolvedOk v) := hst
      rw [show e.tasks.get? j = some ta from hga] at h2
      have h3 : ta.outFuts.get? k = some (FState.resolvedOk v) := h2
      have := hpend.2.1 _ (List.get?_mem h3)
      exact FState.noConfusion this
  | failed =>
    exfalso
    obtain ⟨er, her⟩ :=
      failed_fut_err hInv hga hstat rfl hst
    exact FState.noConfusion her

/-- In a quiescent invariant state, a direct dependent of a failed
invocation has itself failed by dependency propagation: it is `failed`,
its futures carry `DependencyFailed`, and its body never ran. -/
lemma quiet_dep_failed {e : Engine} (hInv : Inv e) (hq : Quiet e)
    {a b : Nat} {ta : Task} (hga : e.tasks.get? a = some ta)
    (hfa : ta.status = .failed) (hdep : DependsOn e.tasks b a) :
    ∃ tb, e.tasks.get? b = some tb ∧ tb.status = .failed ∧
      tb.resFut = .resolvedErr .DependencyFailed ∧ tb.runCount = 0 ∧
      (∀ f ∈ tb.outFuts, f = FState.resolvedErr .DependencyFailed) := by
  obtain ⟨tb, hgb, fr, hmem, howner, hsome⟩ := hdep
  obtain ⟨st, hst⟩ := Option.isSome_iff_exists.mp hsome
  obtain ⟨er, rfl⟩ := failed_fut_err hInv hga hfa howner hst
  have hfailedArg : argFailed e.tasks (Arg.fut fr) = true := by
    simp only [argFailed, hst]
  have hnotOk : argOk e.tasks (Arg.fut fr) = false := by
    simp only [argOk, hst]
  have hnores : resolveArg e.tasks (Arg.fut fr) = none := by
    simp only [resolveArg, hst]
  have hti := hInv b tb hgb
  cases hstat : tb.status with
  | pending =>
    exfalso
    have hdepf : anyDepFailed e.tasks tb.args = true :=
      List.any_eq_true.mpr ⟨Arg.fut fr, hmem, hfailedArg⟩
    exact hq _ (Step.dep_fail e b tb hgb hstat hdepf)
  | ready =>
    exfalso
    have hok := hti.2.2.1 (Or.inl hstat)
    have := List.all_eq_true.mp hok _ hmem
    rw [hnotOk] at this
    exact Bool.noConfusion this
  | running =>
    exfalso
    have hok := hti.2.2.1 (Or.inr hstat)
    have := List.all_eq_true.mp hok _ hmem
    rw [hnotOk] at this
    exact Bool.noConfusion this
  | completed =>
    exfalso
    obtain ⟨vals, v, hra, _, _, _, _⟩ := hti.2.2.2.1 hstat
    obtain ⟨w, hw⟩ := resolveArgs_mem hra _ hmem
    rw [hnores] at hw
    exact Option.noConfusion hw
  | failed =>
    rcases hti.2.2.2.2 hstat with ⟨h1, h2, h3⟩ | ⟨_, _, ⟨vals, hra, _⟩, _⟩
    · exact ⟨tb, hgb, hstat, h1, h2, h3⟩
    · exfalso
      obtain ⟨w, hw⟩ := resolveArgs_mem hra _ hmem
      rw [hnores] at hw
      exact Option.noConfusion hw

/-- In a quiescent invariant state, failure has propagated along every
dependency chain: each transitive dependent of a failed invocation is
`failed` with `DependencyFailed` futures and an unexecuted body. -/
lemma quiet_chain_failed {e : Engine} (hInv : Inv e) (hq : Quiet e)
    {a b : Nat} {ta : Task} (hga : e.tasks.get? a = some ta)
    (hfa : ta.status = .failed) (hchain : DepChain e.tasks a b) :
    ∃ tb, e.tasks.get? b = some tb ∧ tb.status = .failed ∧
      tb.resFut = .resolvedErr .DependencyFailed ∧ tb.runCount = 0 ∧
      (∀ f ∈ tb.outFuts, f = FState.resolvedErr .DependencyFailed) := by
  induction hchain with
  | single hdep => exact quiet_dep_failed hInv hq hga hfa hdep
  | extend _ hdep ih =>
    obtain ⟨tb, hgb, hfb, _, _, _⟩ := ih
    exact quiet_dep_failed hInv hq hgb hfb hdep

/-- A failed invocation is never modified by any later coordinator
transition: failure propagation happens at most once per invocation. -/
lemma failed_frozen {e1 e2 : Engine} (hs : Step e1 e2) {i : Nat} {t : Task}
    (hgt : e1.tasks.get? i = some t) (hft : t.status = .failed) :
    e2.tasks.get? i = some t := by
  have main : ∀ (j : Nat) (u : Task) (u2 : Task), e1.tasks.get? j = some u →
      (u.status = .pending ∨ u.status = .ready ∨ u.status = .running) →
      (e1.tasks.set j u2).get? i = some t := by
    intro j u u2 hgu hlive
    by_cases hij : i = j
    · exfalso
      subst hij
      rw [hgu] at hgt
      have hut : u = t := Option.some_inj.mp hgt
      rw [hut, hft] at hlive
      rcases hlive with h | h | h <;> exact Status.noConfusion h
    · rw [get?_set_of_ne _ _ hij]
      exact hgt
  cases hs with
  | to_ready j u hgu hst _ => exact main j u _ hgu (Or.inl hst)
  | dep_fail j u hgu hst _ => exact main j u _ hgu (Or.inl hst)
  | to_running j u hgu hst => exact main j u _ hgu (Or.inr (Or.inl hst))
  | complete j u vals v hgu hst _ _ => exact main j u _ hgu (Or.inr (Or.inr hst))
  | run_fail j u vals hgu hst _ _ => exact main j u _ hgu (Or.inr (Or.inr hst))

/-- Each coordinator transition touches exactly one invocation: every
other invocation's record, futures included, is unchanged. -/
lemma step_frame {e1 e2 : Engine} (hs : Step e1 e2) :
    ∃ i, ∀ j, j ≠ i → e2.tasks.get? j = e1.tasks.get? j := by
  cases hs with
  | to_ready i t hgt hst _ => exact ⟨i, fun j hj => get?_set_of_ne _ _ hj⟩
  | dep_fail i t hgt hst _ => exact ⟨i, fun j hj => get?_set_of_ne _ _ hj⟩
  | to_running i t hgt hst => exact ⟨i, fun j hj => get?_set_of_ne _ _ hj⟩
  | complete i t vals v hgt hst _ _ =>
    exact ⟨i, fun j hj => get?_set_of_ne _ _ hj⟩
  | run_fail i t vals hgt hst _ _ =>
    exact ⟨i, fun j hj => get?_set_of_ne _ _ hj⟩

lemma cacheLookup_store_preserve {c : List (CacheKey × Val)} {k : CacheKey}
    {v : Val} (h : cacheLookup c k = some v) (k2 : CacheKey) (v2 : Val) :
    cacheLookup (cacheStore c k2 v2) k = some v := by
  unfold cacheStore
  cases h2 : cacheLookup c k2 with
  | some w => exact h
  | none =>
    unfold cacheLookup at h ⊢
    rw [List.find?_append]
    cases hf : c.find? fun en => decide (en.1 = k) with
    | none => rw [hf] at h; simp at h
    | some kv =>
      rw [hf] at h
      simp only [Option.or]
      exact h

lemma cacheLookup_replay_preserve {k : CacheKey} {v : Val} :
    ∀ (seg : List (CacheKey × Val)) (c : List (CacheKey × Val)),
      cacheLookup c k = some v → cacheLookup (replay c seg) k = some v := by
  intro seg
  induction seg with
  | nil => intro c h; exact h
  | cons kv rest ih =>
    intro c h
    exact ih (cacheStore c kv.1 kv.2) (cacheLookup_store_preserve h kv.1 kv.2)

lemma cacheLookup_store_other {c : List (CacheKey × Val)} {k k2 : CacheKey}
    (hne : k ≠ k2) (v2 : Val) (h : cacheLookup c k = none) :
    cacheLookup (cacheStore c k2 v2) k = none := by
  unfold cacheStore
  cases h2 : cacheLookup c k2 with
  | some w => exact h
  | none =>
    unfold cacheLookup at h ⊢
    rw [List.find?_append]
    cases hf : c.find? fun en => decide (en.1 = k) with
    | some kv => rw [hf] at h; simp at h
    | none =>
      have hne2 : k2 ≠ k := Ne.symm hne
      simp only [Option.or, List.find?]
      simp [hne2]

lemma cacheLookup_replay_new {k : CacheKey} {v : Val} :
    ∀ (seg : List (CacheKey × Val)) (c : List (CacheKey × Val)),
      cacheLookup c k = none → cacheLookup seg k = some v →
      cacheLookup (replay c seg) k = some v := by
  intro seg
  induction seg with
  | nil => intro c _ hseg; simp [cacheLookup] at hseg
  | cons kv rest ih =>
    intro c hc hseg
    by_cases hk : kv.1 = k
    · have hv : kv.2 = v := by
        unfold cacheLookup at hseg
        rw [List.find?_cons_of_pos _ (by simp [hk])] at hseg
        simpa using hseg
      have hfind : (c.find? fun en => decide (en.1 = k)) = none := by
        cases hf2 : c.find? fun en => decide (en.1 = k) with
        | none => rfl
        | some kv2 =>
          unfold cacheLookup at hc
          rw [hf2] at hc
          simp at hc
      have hstep : cacheLookup (cacheStore c kv.1 kv.2) k = some v := by
        unfold cacheStore
        rw [show cacheLookup c kv.1 = none from by rw [hk]; exact hc]
        unfold cacheLookup
        rw [List.find?_append, hfind]
        simp [Option.or, List.find?, hk, hv]
      exact cacheLookup_replay_preserve rest _ hstep
    · have hrest : cacheLookup rest k = some v := by
        unfold cacheLookup at hseg ⊢
        rw [List.find?_cons_of_neg _ (by simp [hk])] at hseg
        exact hseg
      exact ih _ (cacheLookup_store_other (fun h => hk h.symm) kv.2 hc) hrest

lemma cacheLookup_store_self {c : List (CacheKey × Val)} {k : CacheKey}
    (v : Val) (h : cacheLookup c k = none) :
    cacheLookup (cacheStore c k v) k = some v := by
  have hfind : (c.find? fun en => decide (en.1 = k)) = none := by
    cases hf2 : c.find? fun en => decide (en.1 = k) with
    | none => rfl
    | some kv2 =>
      unfold cacheLookup at h
      rw [hf2] at h
      simp at h
  unfold cacheStore
  rw [h]
  unfold cacheLookup
  rw [List.find?_append, hfind]
  simp [Option.or, List.find?]

lemma reach_trans {a b c : Engine} (h1 : Reach a b) (h2 : Reach b c) :
    Reach a c := by
  induction h2 with
  | refl => exact h1
  | tail _ hs ih => exact Reach.tail ih hs

lemma inv_reach_inv {e1 e2 : Engine} (hInv : Inv e1) (hr : Reach e1 e2) :
    Inv e2 := by
  induction hr with
  | refl => exact hInv
  | tail _ hs ih => exact inv_step ih hs

lemma fut_mono_reach_inv {e1 e2 : Engine} (hInv : Inv e1) (hr : Reach e1 e2)
    {fr : FutRef} {st : FState} (hget : futGet e1.tasks fr = some st)
    (hne : st ≠ .pending) : futGet e2.tasks fr = some st := by
  induction hr with
  | refl => exact hget
  | tail hr2 hs ih => exact fut_mono_step (inv_reach_inv hInv hr2) hs ih hne

lemma invoke_hit {e : Engine} {app : AppDef} {args : List Arg}
    {outs : List String} {v : Val} (hce : app.cacheEligible = true)
    (hvo : validOutputs outs = true)
    (hhit : cacheLookup e.cache (mkKey app args outs) = some v) :
    invoke e app args outs =
      .ok ({ e with tasks := e.tasks ++ [cachedTask app args outs v] },
        e.tasks.length) := by
  unfold invoke
  rw [if_pos hvo]
  have hbr : (if app.cacheEligible = true then
      cacheLookup e.cache (mkKey app args outs) else none) = some v := by
    rw [hce]
    simp [hhit]
  rw [hbr]

lemma invoke_miss {e : Engine} {app : AppDef} {args : List Arg}
    {outs : List String} (hvo : validOutputs outs = true)
    (hmiss : cacheLookup e.cache (mkKey app args outs) = none) :
    invoke e app args outs =
      .ok ({ e with tasks := e.tasks ++ [pendingTask app args outs] },
        e.tasks.length) := by
  unfold invoke
  rw [if_pos hvo]
  have hbr : (if app.cacheEligible = true then
      cacheLookup e.cache (mkKey app args outs) else none) = none := by
    cases hce : app.cacheEligible
    · simp
    · simp [hmiss]
  rw [hbr]

lemma totalRuns_append_zero {e : Engine} {t : Task} (h : t.runCount = 0) :
    totalRuns { e with tasks := e.tasks ++ [t] } = totalRuns e := by
  simp [totalRuns, h]

lemma get?_concat {l : List Task} {t : Task} :
    (l ++ [t]).get? l.length = some t :=
  List.get?_concat_length l t

lemma dependsOn_of_B {ts : List Task} {b a : Nat}
    (h : dependsOnB ts b a = true) : DependsOn ts b a := by
  unfold dependsOnB at h
  cases hg : ts.get? b with
  | none => rw [hg] at h; simp at h
  | some tb =>
    rw [hg] at h
    obtain ⟨x, hmem, hx⟩ := List.any_eq_true.mp h
    match x, hx with
    | .fut fr, hx =>
      simp only [Bool.and_eq_true] at hx
      obtain ⟨h1, h2⟩ := hx
      exact ⟨tb, hg, fr, hmem, of_decide_eq_true h1, h2⟩

lemma quiet_of_allTerminal {e : Engine} (h : allTerminal e = true) :
    Quiet e := by
  apply quiet_of_terminal
  intro i t hgt
  have h2 := List.all_eq_true.mp h t (List.get?_mem hgt)
  simp only [Bool.or_eq_true] at h2
  rcases h2 with h3 | h3
  · exact Or.inl (of_decide_eq_true h3)
  · exact Or.inr (of_decide_eq_true h3)

/-- Claim C1: if some argument of invocation B is a result-future or file-future
produced by invocation A, then B never enters `running` before that future
of A has resolved: in every reachable state in which B is `running`, the
future has already resolved (successfully) and its producing invocation
has `completed` — invocations on a dependency chain execute in dependency
order. -/
theorem running_implies_deps_resolved (e0 e : Engine) (b : Nat) (t : Task)
    (fr : FutRef) (h0 : initOk e0 = true) (hr : Reach e0 e)
    (hgb : e.tasks.get? b = some t) (hrun : t.status = .running)
    (hmem : Arg.fut fr ∈ t.args) :
    (∃ v, futGet e.tasks fr = some (.resolvedOk v)) ∧
    (∀ ta, e.tasks.get? fr.owner = some ta → ta.status = .completed) := by
  have hInv := inv_reach h0 hr
  have hok := (hInv b t hgb).2.2.1 (Or.inr hrun)
  have h1 := List.all_eq_true.mp hok _ hmem
  have h2 : ∃ v, futGet e.tasks fr = some (.resolvedOk v) := by
    cases hf : futGet e.tasks fr with
    | none => simp [argOk, hf] at h1
    | some st =>
      cases st with
      | pending => simp [argOk, hf] at h1
      | resolvedOk v => exact ⟨v, rfl⟩
      | resolvedErr er => simp [argOk, hf] at h1
  obtain ⟨v, hf⟩ := h2
  exact ⟨⟨v, hf⟩, fun ta hga => owner_completed hInv hf hga⟩

/-- Claim C10: when an invocation's body executes, it is applied to the resolved
values of its future-valued arguments, substituted in place of the future
objects: every `completed` invocation's result-future carries exactly the
value of the plain underlying function on those resolved values. -/
theorem completed_result_is_body_on_resolved_args (e0 e : Engine) (i : Nat)
    (t : Task) (h0 : initOk e0 = true) (hr : Reach e0 e)
    (hgt : e.tasks.get? i = some t) (hc : t.status = .completed) :
    ∃ vals v, resolveArgs e.tasks t.args = some vals ∧
      t.body vals = some v ∧ t.resFut = .resolvedOk v ∧
      (∀ a ∈ t.args, ∃ w, resolveArg e.tasks a = some w) := by
  obtain ⟨vals, v, h1, h2, h3, _, _⟩ :=
    (inv_reach h0 hr i t hgt).2.2.2.1 hc
  exact ⟨vals, v, h1, h2, h3, fun a ha => resolveArgs_mem h1 a ha⟩

/-- Claim C5: every result-future and file-future transitions at most once,
one-way, out of `pending`, into exactly one resolution, and is never
mutated afterward: a resolved future keeps the same resolution at every
later reachable state; the non-blocking status query (`isDone`) reports
not-done before the transition and done after it, and the blocking
wait-for-value operation returns the unique resolution payload. -/
theorem future_resolution_write_once (e0 e1 e2 : Engine) (fr : FutRef)
    (st : FState) (h0 : initOk e0 = true) (hr1 : Reach e0 e1)
    (hr2 : Reach e1 e2) (hget : futGet e1.tasks fr = some st)
    (hne : st ≠ .pending) :
    futGet e2.tasks fr = some st ∧
    FState.pending.isDone = false ∧ st.isDone = true ∧
    (∀ v, st = .resolvedOk v → st.payload = some (.ok v)) ∧
    (∀ er, st = .resolvedErr er → st.payload = some (.error er)) := by
  refine ⟨fut_mono_reach_inv (inv_reach h0 hr1) hr2 hget hne, rfl, ?_, ?_, ?_⟩
  · cases st with
    | pending => exact absurd rfl hne
    | resolvedOk v => rfl
    | resolvedErr er => rfl
  · intro v hv
    rw [hv]
    rfl
  · intro er her
    rw [her]
    rfl

/-- Claim C2: a dependency future that resolves with a failure moves the
dependent invocation directly from `pending` to `failed` without its body
executing (its side-effect counter stays zero), resolving its
result-future and all of its output file-futures with `DependencyFailed`;
in a quiescent state this propagation has reached every invocation
transitively depending on a failed one; and a failed invocation is never
modified again, so propagation happens exactly once even when several
dependencies fail. -/
theorem dependency_failure_propagation (e0 e : Engine)
    (h0 : initOk e0 = true) (hr : Reach e0 e) :
    (∀ i t, e.tasks.get? i = some t → t.status = .pending →
      anyDepFailed e.tasks t.args = true →
      Step e (depFailUpd e i t) ∧ t.runCount = 0 ∧
      ∃ t2, (depFailUpd e i t).tasks.get? i = some t2 ∧
        t2.status = .failed ∧ t2.resFut = .resolvedErr .DependencyFailed ∧
        t2.runCount = 0 ∧
        (∀ f ∈ t2.outFuts, f = FState.resolvedErr .DependencyFailed)) ∧
    (Quiet e → ∀ a b ta, e.tasks.get? a = some ta → ta.status = .failed →
      DepChain e.tasks a b →
      ∃ tb, e.tasks.get? b = some tb ∧ tb.status = .failed ∧
        tb.resFut = .resolvedErr .DependencyFailed ∧ tb.runCount = 0 ∧
        (∀ f ∈ tb.outFuts, f = FState.resolvedErr .DependencyFailed)) ∧
    (∀ e2 i t, Step e e2 → e.tasks.get? i = some t → t.status = .failed →
      e2.tasks.get? i = some t) := by
  have hInv := inv_reach h0 hr
  refine ⟨?_, ?_, ?_⟩
  · intro i t hgt hst hdep
    have hstep := Step.dep_fail e i t hgt hst hdep
    have hrc := ((hInv i t hgt).2.1 (Or.inl hst)).2.2
    refine ⟨hstep, hrc, _, get?_set_self _ hgt, rfl, rfl, hrc, ?_⟩
    intro f hf
    rcases List.mem_map.mp hf with ⟨g, _, hg⟩
    exact hg.symm
  · intro hq a b ta hga hfa hchain
    exact quiet_chain_failed hInv hq hga hfa hchain
  · intro e2 i t hs hgt hft
    exact failed_frozen hs hgt hft

/-- Claim C6: when a shell-command invocation that declares an output file
completes successfully without creating that file, the corresponding
file-future resolves with a `MissingOutput` error while the result-future
still resolves successfully and the invocation is `completed`; a declared
output's existence is checked against the files actually created before
its file-future is resolved. -/
theorem missing_output_file_future (e : Engine) (i : Nat) (t : Task)
    (vals : List Val) (v : Val) (hgt : e.tasks.get? i = some t)
    (hst : t.status = .running) (hra : resolveArgs e.tasks t.args = some vals)
    (hb : t.body vals = some v) :
    Step e (completeUpd e i t vals v) ∧
    ∃ t2, (completeUpd e i t vals v).tasks.get? i = some t2 ∧
      t2.status = .completed ∧ t2.resFut = .resolvedOk v ∧
      (∀ j p, t.outPaths.get? j = some p → p ∉ t.creates vals →
        t2.outFuts.get? j = some (.resolvedErr .MissingOutput)) ∧
      (∀ j p, t.outPaths.get? j = some p → p ∈ t.creates vals →
        t2.outFuts.get? j = some (.resolvedOk (.vfile p))) := by
  refine ⟨Step.complete e i t vals v hgt hst hra hb,
    _, get?_set_self _ hgt, rfl, rfl, ?_, ?_⟩
  · intro j p hp hnot
    show (resolveOutputs t.outPaths (t.creates vals)).get? j = _
    unfold resolveOutputs
    rw [List.get?_map, hp]
    simp [hnot]
  · intro j p hp hin
    show (resolveOutputs t.outPaths (t.creates vals)).get? j = _
    unfold resolveOutputs
    rw [List.get?_map, hp]
    simp [hin]

/-- Claim C7: calling a wrapped app never blocks the caller: a malformed output
list fails synchronously with `InvalidInvocation` and that is the only
synchronous error; every other call returns immediately with the
invocation's result-future and one file-future per declared output, the
body not having executed (counter zero, total executions unchanged), the
invocation `pending` — except the synchronous cache-hit fast path, which
returns it `completed`; and every post-dispatch transition touches only
the affected invocation's record and futures, never unrelated ones. -/
theorem invoke_returns_futures_immediately (e : Engine) (app : AppDef)
    (args : List Arg) (outs : List String) :
    (validOutputs outs = false →
      invoke e app args outs = .error .InvalidInvocation) ∧
    (validOutputs outs = true → ∃ e2,
      invoke e app args outs = .ok (e2, e.tasks.length) ∧
      ∃ t, e2.tasks.get? e.tasks.length = some t ∧ t.runCount = 0 ∧
        totalRuns e2 = totalRuns e ∧
        futGet e2.tasks (.res e.tasks.length) = some t.resFut ∧
        t.outFuts.length = outs.length ∧
        (∀ j, j < outs.length →
          ∃ st, futGet e2.tasks (.file e.tasks.length j) = some st) ∧
        (t.status = .pending ∨
          (app.cacheEligible = true ∧ t.status = .completed)) ∧
        (t.status = .pending → t.resFut = .pending)) ∧
    (∀ e2, Step e e2 → ∃ i, ∀ j, j ≠ i →
      e2.tasks.get? j = e.tasks.get? j) := by
  refine ⟨?_, ?_, fun e2 hs => step_frame hs⟩
  · intro hvo
    unfold invoke
    rw [if_neg (by simp [hvo])]
  · intro hvo
    cases hbr : (if app.cacheEligible = true then
        cacheLookup e.cache (mkKey app args outs) else none) with
    | none =>
      refine ⟨_, by unfold invoke; rw [if_pos hvo, hbr], ?_⟩
      refine ⟨pendingTask app args outs, get?_concat, rfl,
        totalRuns_append_zero rfl, ?_, ?_, ?_, Or.inl rfl, fun _ => rfl⟩
      · show ((e.tasks ++ [pendingTask app args outs]).get?
          e.tasks.length).map Task.resFut = _
        rw [get?_concat]
        rfl
      · simp [pendingTask]
      · intro j hj
        refine ⟨.pending, ?_⟩
        show ((e.tasks ++ [pendingTask app args outs]).get?
          e.tasks.length).bind (fun u => u.outFuts.get? j) = some .pending
        rw [get?_concat]
        show (outs.map fun _ => FState.pending).get? j = some .pending
        rw [List.get?_map, List.get?_eq_get hj]
        rfl
    | some v =>
      have hce : app.cacheEligible = true := by
        cases hce2 : app.cacheEligible
        · rw [hce2] at hbr
          simp at hbr
        · rfl
      refine ⟨_, by unfold invoke; rw [if_pos hvo, hbr], ?_⟩
      refine ⟨cachedTask app args outs v, get?_concat, rfl,
        totalRuns_append_zero rfl, ?_, ?_, ?_, Or.inr ⟨hce, rfl⟩, ?_⟩
      · show ((e.tasks ++ [cachedTask app args outs v]).get?
          e.tasks.length).map Task.resFut = _
        rw [get?_concat]
        rfl
      · simp [cachedTask]
      · intro j hj
        refine ⟨.resolvedOk (.vfile (outs.get ⟨j, hj⟩)), ?_⟩
        show ((e.tasks ++ [cachedTask app args outs v]).get?
          e.tasks.length).bind (fun u => u.outFuts.get? j) = _
        rw [get?_concat]
        show (outs.map fun p => FState.resolvedOk (.vfile p)).get? j = _
        rw [List.get?_map, List.get?_eq_get hj]
        rfl
      · intro h
        exact Status.noConfusion h

/-- Claim C3: for a cache-eligible app, a successful completion stores its
result under the invocation's key, and a later call with structurally
identical arguments takes the synchronous fast path: its result-future is
already resolved at return with the cached value, the declared outputs
are treated as already materialized, the invocation is `completed`
without dispatch and without executing the body (total executions
unchanged) — while any invocation that did execute to completion ran its
body exactly once. -/
theorem cache_hit_fast_path (e : Engine) (app : AppDef) (args : List Arg)
    (outs : List String) (v : Val) (hce : app.cacheEligible = true)
    (hvo : validOutputs outs = true)
    (hhit : cacheLookup e.cache (mkKey app args outs) = some v) :
    invoke e app args outs =
      .ok ({ e with tasks := e.tasks ++ [cachedTask app args outs v] },
        e.tasks.length) ∧
    (cachedTask app args outs v).status = .completed ∧
    (cachedTask app args outs v).resFut = .resolvedOk v ∧
    (cachedTask app args outs v).outFuts =
      outs.map (fun p => .resolvedOk (.vfile p)) ∧
    (cachedTask app args outs v).runCount = 0 ∧
    totalRuns { e with tasks := e.tasks ++ [cachedTask app args outs v] } =
      totalRuns e ∧
    (∀ (e1 : Engine) (i : Nat) (t : Task) (vals : List Val) (w : Val),
      e1.tasks.get? i = some t → t.status = .running →
      resolveArgs e1.tasks t.args = some vals → t.body vals = some w →
      t.cacheEligible = true → cacheLookup e1.cache t.key = none →
      Step e1 (completeUpd e1 i t vals w) ∧
      cacheLookup (completeUpd e1 i t vals w).cache t.key = some w) ∧
    (∀ (e0 e1 : Engine) (i : Nat) (t : Task), initOk e0 = true →
      Reach e0 e1 → e1.tasks.get? i = some t → t.status = .completed →
      t.runCount = 1) := by
  refine ⟨invoke_hit hce hvo hhit, rfl, rfl, rfl, rfl,
    totalRuns_append_zero rfl, ?_, ?_⟩
  · intro e1 i t vals w hgt hst hra hb hcet hnone
    refine ⟨Step.complete e1 i t vals w hgt hst hra hb, ?_⟩
    show cacheLookup (if t.cacheEligible = true then
      cacheStore e1.cache t.key w else e1.cache) t.key = some w
    rw [if_pos hcet]
    exact cacheLookup_store_self w hnone
  · intro e0 e1 i t h0 hr hgt hc
    obtain ⟨_, _, _, _, _, _, hrc⟩ := (inv_reach h0 hr i t hgt).2.2.2.1 hc
    exact hrc

/-- Claim C4: checkpoint/restore round-trip — `checkpoint()` flushes the cache
entries written since the last checkpoint as one durable segment and
returns its token; `restore(token)` on a fresh coordinator replays that
segment into the cache before any new invocation executes; re-invoking a
previously-completed cache-eligible invocation with identical arguments
on the restored coordinator then returns the previously computed result
from the cache without re-executing its body. -/
theorem checkpoint_restore_roundtrip (e : Engine) (store : Store)
    (k : CacheKey) (v : Val) (fresh : Engine) (hflushed : e.flushed = 0)
    (hk : cacheLookup e.cache k = some v) (hfresh : fresh.cache = []) :
    ∃ e1 store1 tok, checkpointOp e store = (e1, store1, tok) ∧
      store1.get? tok = some e.cache ∧
      cacheLookup (restore fresh store1 [tok]).cache k = some v ∧
      (∀ (e3 : Engine) (app : AppDef) (args : List Arg)
          (outs : List String),
        e3.cache = (restore fresh store1 [tok]).cache →
        app.cacheEligible = true → validOutputs outs = true →
        mkKey app args outs = k →
        invoke e3 app args outs =
          .ok ({ e3 with tasks := e3.tasks ++ [cachedTask app args outs v] },
            e3.tasks.length) ∧
        (cachedTask app args outs v).status = .completed ∧
        (cachedTask app args outs v).resFut = .resolvedOk v ∧
        (cachedTask app args outs v).runCount = 0 ∧
        totalRuns { e3 with
            tasks := e3.tasks ++ [cachedTask app args outs v] } =
          totalRuns e3) := by
  have hseg : (store ++ [e.cache.drop e.flushed]).get? store.length =
      some e.cache := by
    rw [hflushed, List.drop_zero]
    exact List.get?_concat_length store e.cache
  have hfm : [store.length].filterMap
      (List.get? (store ++ [e.cache.drop e.flushed])) = [e.cache] := by
    simp [List.filterMap_cons, hseg]
    rw [hflushed]
    exact List.drop_zero e.cache
  have hlook : cacheLookup
      (restore fresh (store ++ [e.cache.drop e.flushed])
        [store.length]).cache k = some v := by
    show cacheLookup (([store.length].filterMap
      (List.get? (store ++ [e.cache.drop e.flushed]))).foldl replay
        fresh.cache) k = some v
    rw [hfm]
    show cacheLookup (replay fresh.cache e.cache) k = some v
    rw [hfresh]
    exact cacheLookup_replay_new e.cache [] rfl hk
  refine ⟨_, _, _, rfl, hseg, hlook, ?_⟩
  intro e3 app args outs he3 hcea hvoa hkey
  have hhit : cacheLookup e3.cache (mkKey app args outs) = some v := by
    rw [he3, hkey]
    exact hlook
  exact ⟨invoke_hit hcea hvoa hhit, rfl, rfl, rfl,
    totalRuns_append_zero rfl⟩

/-- Claim C8: the cache key is a deterministic function of the callable
identity (name and body hash), the ordered argument representation under
structural equality, and the declared outputs — two keys agree exactly
when all three components agree, so structurally different arguments or
a rewritten body give a different key, which misses the cache and
registers a fresh `pending` invocation that will re-execute the body;
and cache entries are immutable once written. -/
theorem cache_key_deterministic (app app2 : AppDef) (args args2 : List Arg)
    (outs outs2 : List String) :
    (mkKey app args outs = mkKey app2 args2 outs2 ↔
      app.name = app2.name ∧ app.bodyHash = app2.bodyHash ∧
        args = args2 ∧ outs = outs2) ∧
    (∀ (c : List (CacheKey × Val)) (k : CacheKey) (v v2 : Val),
      cacheLookup c k = some v → cacheLookup (cacheStore c k v2) k = some v) ∧
    (∀ e : Engine, validOutputs outs = true →
      cacheLookup e.cache (mkKey app args outs) = none →
      invoke e app args outs =
        .ok ({ e with tasks := e.tasks ++ [pendingTask app args outs] },
          e.tasks.length) ∧
      (pendingTask app args outs).status = .pending ∧
      (pendingTask app args outs).runCount = 0) := by
  refine ⟨?_, ?_, ?_⟩
  · constructor
    · intro h
      exact ⟨congrArg CacheKey.fname h, congrArg CacheKey.bodyHash h,
        congrArg CacheKey.argrep h, congrArg CacheKey.outs h⟩
    · rintro ⟨h1, h2, h3, h4⟩
      unfold mkKey
      rw [h1, h2, h3, h4]
  · intro c k v v2 h
    exact cacheLookup_store_preserve h k v2
  · intro e hvo2 hmiss
    exact ⟨invoke_miss hvo2 hmiss, rfl, rfl⟩

/-- Claim C9: for any configuration with `minBlocks ≤ maxBlocks` and a
parallelism coefficient in [0,1], the elastic controller's target block
count always lies between `minBlocks` and `maxBlocks`; with
minBlocks = 0, maxBlocks = 10, parallelism = 1 and 10 ready invocations
the target is 10 (proportional to ready work, capped), and with
parallelism = 0.1 the target for the same ready-queue depth is 1 —
strictly lower. -/
theorem elastic_target_bounded (minB maxB : Nat) (par : ℚ) (ready : Nat)
    (hpar0 : 0 ≤ par) (hpar1 : par ≤ 1) (hle : minB ≤ maxB) :
    minB ≤ targetBlocks minB maxB par ready ∧
    targetBlocks minB maxB par ready ≤ maxB ∧
    targetBlocks 0 10 1 10 = 10 ∧
    targetBlocks 0 10 (1 / 10) 10 = 1 ∧
    targetBlocks 0 10 (1 / 10) 10 < targetBlocks 0 10 1 10 := by
  clear hpar0 hpar1
  have h1 : targetBlocks 0 10 1 10 = 10 := by
    unfold targetBlocks
    rw [one_mul, Nat.ceil_natCast]
    decide
  have h2 : targetBlocks 0 10 (1 / 10) 10 = 1 := by
    unfold targetBlocks
    have hm : (1 / 10 : ℚ) * ((10 : Nat) : ℚ) = 1 := by norm_num
    rw [hm, Nat.ceil_one]
    decide
  refine ⟨le_max_left _ _, max_le hle (min_le_left _ _), h1, h2, ?_⟩
  rw [h1, h2]
  norm_num

lemma wReach3 : Reach wE0 wE3 :=
  Reach.tail (Reach.tail (Reach.tail (Reach.refl wE0)
    (Step.to_ready wE0 0 genTask rfl rfl rfl))
    (Step.to_running wE1 0 genR rfl rfl))
    (Step.complete wE2 0 genRun [Val.vint 10] (.vint 7) rfl rfl rfl rfl)

lemma wReach35 : Reach wE3 wE5 :=
  Reach.tail (Reach.tail (Reach.refl wE3)
    (Step.to_ready wE3 1 saveTask rfl rfl rfl))
    (Step.to_running wE4 1 saveR rfl rfl)

lemma wReach36 : Reach wE3 wE6 :=
  Reach.tail wReach35
    (Step.complete wE5 1 saveRun [Val.vint 7] (.vint 7) rfl rfl rfl rfl)

lemma wReach5 : Reach wE0 wE5 := reach_trans wReach3 wReach35

lemma wReach6 : Reach wE0 wE6 := reach_trans wReach3 wReach36

lemma fReach3 : Reach fE0 fE3 :=
  Reach.tail (Reach.tail (Reach.tail (Reach.refl fE0)
    (Step.to_ready fE0 0 failTask rfl rfl rfl))
    (Step.to_running fE1 0 failR rfl rfl))
    (Step.run_fail fE2 0 failRun [] rfl rfl rfl rfl)

lemma fReach5 : Reach fE0 fE5 :=
  Reach.tail (Reach.tail fReach3
    (Step.dep_fail fE3 1 midTask rfl rfl rfl))
    (Step.dep_fail fE4 2 endTask rfl rfl rfl)

lemma fE5_quiet : Quiet fE5 := quiet_of_allTerminal rfl

lemma fDep10 : DependsOn fE5.tasks 1 0 := dependsOn_of_B rfl

lemma fDep21 : DependsOn fE5.tasks 2 1 := dependsOn_of_B rfl

lemma fChain : DepChain fE5.tasks 0 2 :=
  DepChain.extend (DepChain.single fDep10) fDep21

/-- Witness for C1 at the generate/save workflow: `save` is `running`, so
the `generate` future it consumes has resolved and `generate` completed. -/
theorem running_implies_deps_resolved_witness :
    initOk wE0 = true ∧ saveRun.status = Status.running ∧
    ((∃ v, futGet wE5.tasks (FutRef.res 0) = some (.resolvedOk v)) ∧
      (∀ ta, wE5.tasks.get? (FutRef.res 0).owner = some ta →
        ta.status = .completed)) :=
  ⟨rfl, rfl, running_implies_deps_resolved wE0 wE5 1 saveRun (FutRef.res 0)
    rfl wReach5 rfl rfl (by decide)⟩

/-- Witness for C2 at the three-invocation failure chain. -/
theorem dependency_failure_propagation_witness :
    initOk fE0 = true ∧
    (Step fE3 (depFailUpd fE3 1 midTask) ∧ midTask.runCount = 0 ∧
      ∃ t2, (depFailUpd fE3 1 midTask).tasks.get? 1 = some t2 ∧
        t2.status = .failed ∧ t2.resFut = .resolvedErr .DependencyFailed ∧
        t2.runCount = 0 ∧
        (∀ f ∈ t2.outFuts, f = FState.resolvedErr .DependencyFailed)) ∧
    (∃ tb, fE5.tasks.get? 2 = some tb ∧ tb.status = .failed ∧
      tb.resFut = .resolvedErr .DependencyFailed ∧ tb.runCount = 0 ∧
      (∀ f ∈ tb.outFuts, f = FState.resolvedErr .DependencyFailed)) := by
  have h3 := dependency_failure_propagation fE0 fE3 rfl fReach3
  have h5 := dependency_failure_propagation fE0 fE5 rfl fReach5
  exact ⟨rfl, h3.1 1 midTask rfl rfl rfl,
    h5.2.1 fE5_quiet 0 2 failDone rfl rfl fChain⟩

/-- Witness for C5 at the generate future, resolved at `wE3` and
unchanged through the rest of the run. -/
theorem future_resolution_write_once_witness :
    initOk wE0 = true ∧
    futGet wE3.tasks (FutRef.res 0) = some (.resolvedOk (.vint 7)) ∧
    (futGet wE6.tasks (FutRef.res 0) = some (.resolvedOk (.vint 7)) ∧
      FState.pending.isDone = false ∧
      (FState.resolvedOk (.vint 7)).isDone = true ∧
      (∀ v, FState.resolvedOk (.vint 7) = .resolvedOk v →
        (FState.resolvedOk (.vint 7)).payload = some (.ok v)) ∧
      (∀ er, FState.resolvedOk (.vint 7) = .resolvedErr er →
        (FState.resolvedOk (.vint 7)).payload = some (.error er))) :=
  ⟨rfl, rfl, future_resolution_write_once wE0 wE3 wE6 (FutRef.res 0)
    (.resolvedOk (.vint 7)) rfl wReach3 wReach36 rfl (by decide)⟩

/-- Witness for C6 at the `slowecho` invocation whose declared output is
never created. -/
theorem missing_output_file_future_witness :
    echoRun.status = Status.running ∧
    "hello1.txt" ∉ echoRun.creates [Val.vstr "Hello World!"] ∧
    (Step mE2 (completeUpd mE2 0 echoRun [Val.vstr "Hello World!"]
        (.vint 0)) ∧
      ∃ t2, (completeUpd mE2 0 echoRun [Val.vstr "Hello World!"]
          (.vint 0)).tasks.get? 0 = some t2 ∧
        t2.status = .completed ∧ t2.resFut = .resolvedOk (.vint 0) ∧
        (∀ j p, echoRun.outPaths.get? j = some p →
          p ∉ echoRun.creates [Val.vstr "Hello World!"] →
          t2.outFuts.get? j = some (.resolvedErr .MissingOutput)) ∧
        (∀ j p, echoRun.outPaths.get? j = some p →
          p ∈ echoRun.creates [Val.vstr "Hello World!"] →
          t2.outFuts.get? j = some (.resolvedOk (.vfile p)))) :=
  ⟨rfl, by decide, missing_output_file_future mE2 0 echoRun
    [Val.vstr "Hello World!"] (.vint 0) rfl rfl rfl rfl⟩

/-- Witness for C7: a malformed output list fails synchronously with
`InvalidInvocation`; a well-formed call returns its futures at once with
the body unexecuted. -/
theorem invoke_returns_futures_immediately_witness :
    validOutputs [""] = false ∧
    validOutputs ["echo-hello.stdout"] = true ∧
    invoke wE0 helloApp [] [""] = .error .InvalidInvocation ∧
    (∃ e2, invoke wE0 helloApp [] ["echo-hello.stdout"] =
        .ok (e2, wE0.tasks.length) ∧
      ∃ t, e2.tasks.get? wE0.tasks.length = some t ∧ t.runCount = 0 ∧
        totalRuns e2 = totalRuns wE0 ∧
        futGet e2.tasks (.res wE0.tasks.length) = some t.resFut ∧
        t.outFuts.length = ["echo-hello.stdout"].length ∧
        (∀ j, j < ["echo-hello.stdout"].length →
          ∃ st, futGet e2.tasks (.file wE0.tasks.length j) = some st) ∧
        (t.status = .pending ∨
          (helloApp.cacheEligible = true ∧ t.status = .completed)) ∧
        (t.status = .pending → t.resFut = .pending)) :=
  ⟨rfl, rfl,
    (invoke_returns_futures_immediately wE0 helloApp [] [""]).1 rfl,
    (invoke_returns_futures_immediately wE0 helloApp []
      ["echo-hello.stdout"]).2.1 rfl⟩

/-- Witness for C3 at the `slow_message` example: the second call with
the same argument is already resolved synchronously with the first
call's result, without executing the body again. -/
theorem cache_hit_fast_path_witness :
    msgApp.cacheEligible = true ∧
    cacheLookup cE.cache (mkKey msgApp msgArgs []) =
      some (.vstr "Hello World") ∧
    invoke cE msgApp msgArgs [] =
      .ok ({ cE with tasks := cE.tasks ++
        [cachedTask msgApp msgArgs [] (.vstr "Hello World")] },
        cE.tasks.length) ∧
    (cachedTask msgApp msgArgs [] (.vstr "Hello World")).status =
      .completed ∧
    (cachedTask msgApp msgArgs [] (.vstr "Hello World")).resFut =
      .resolvedOk (.vstr "Hello World") ∧
    (cachedTask msgApp msgArgs [] (.vstr "Hello World")).runCount = 0 ∧
    totalRuns { cE with tasks := cE.tasks ++
      [cachedTask msgApp msgArgs [] (.vstr "Hello World")] } =
      totalRuns cE := by
  have h := cache_hit_fast_path cE msgApp msgArgs [] (.vstr "Hello World")
    rfl rfl rfl
  exact ⟨rfl, rfl, h.1, h.2.1, h.2.2.1, h.2.2.2.2.1, h.2.2.2.2.2.1⟩

/-- Witness for C4 at the `slow_double` example: after checkpoint and
restore into a fresh coordinator, all five previously computed results
are served from the cache, and re-invocation is a synchronous cache hit
with no body execution. -/
theorem checkpoint_restore_roundtrip_witness :
    cacheLookup restoredE.cache (dk 0) = some (.vint 0) ∧
    cacheLookup restoredE.cache (dk 1) = some (.vint 2) ∧
    cacheLookup restoredE.cache (dk 2) = some (.vint 4) ∧
    cacheLookup restoredE.cache (dk 3) = some (.vint 6) ∧
    cacheLookup restoredE.cache (dk 4) = some (.vint 8) ∧
    invoke restoredE dApp [Arg.lit (.vint 3)] [] =
      .ok ({ restoredE with tasks := restoredE.tasks ++
        [cachedTask dApp [Arg.lit (.vint 3)] [] (.vint 6)] },
        restoredE.tasks.length) ∧
    totalRuns { restoredE with tasks := restoredE.tasks ++
      [cachedTask dApp [Arg.lit (.vint 3)] [] (.vint 6)] } =
      totalRuns restoredE := by
  obtain ⟨a0, s0, t0, hcp0, _, hlk0, _⟩ :=
    checkpoint_restore_roundtrip cpE [] (dk 0) (.vint 0) emptyE rfl rfl rfl
  obtain ⟨a1, s1, t1, hcp1, _, hlk1, _⟩ :=
    checkpoint_restore_roundtrip cpE [] (dk 1) (.vint 2) emptyE rfl rfl rfl
  obtain ⟨a2, s2, t2, hcp2, _, hlk2, _⟩ :=
    checkpoint_restore_roundtrip cpE [] (dk 2) (.vint 4) emptyE rfl rfl rfl
  obtain ⟨a3, s3, t3, hcp3, _, hlk3, hinv3⟩ :=
    checkpoint_restore_roundtrip cpE [] (dk 3) (.vint 6) emptyE rfl rfl rfl
  obtain ⟨a4, s4, t4, hcp4, _, hlk4, _⟩ :=
    checkpoint_restore_roundtrip cpE [] (dk 4) (.vint 8) emptyE rfl rfl rfl
  have hE0 : restoredE = restore emptyE s0 [t0] := by
    unfold restoredE cpStore cpTok
    rw [hcp0]
  have hE1 : restoredE = restore emptyE s1 [t1] := by
    unfold restoredE cpStore cpTok
    rw [hcp1]
  have hE2 : restoredE = restore emptyE s2 [t2] := by
    unfold restoredE cpStore cpTok
    rw [hcp2]
  have hE3 : restoredE = restore emptyE s3 [t3] := by
    unfold restoredE cpStore cpTok
    rw [hcp3]
  have hE4 : restoredE = restore emptyE s4 [t4] := by
    unfold restoredE cpStore cpTok
    rw [hcp4]
  have hinv := hinv3 (restore emptyE s3 [t3]) dApp [Arg.lit (.vint 3)] []
    rfl rfl rfl rfl
  refine ⟨?_, ?_, ?_, ?_, ?_, ?_, ?_⟩
  · rw [hE0]; exact hlk0
  · rw [hE1]; exact hlk1
  · rw [hE2]; exact hlk2
  · rw [hE3]; exact hlk3
  · rw [hE4]; exact hlk4
  · rw [hE3]; exact hinv.1
  · rw [hE3]; exact hinv.2.2.2.2

/-- Witness for C8 at the `slow_message` example: changing the argument
string changes the key (and the other components are preserved). -/
theorem cache_key_deterministic_witness :
    (mkKey msgApp msgArgs [] =
        mkKey msgApp [Arg.lit (.vstr "Hello World!")] [] ↔
      msgApp.name = msgApp.name ∧ msgApp.bodyHash = msgApp.bodyHash ∧
        msgArgs = [Arg.lit (.vstr "Hello World!")] ∧
        ([] : List String) = []) ∧
    (∀ (c : List (CacheKey × Val)) (k : CacheKey) (v v2 : Val),
      cacheLookup c k = some v → cacheLookup (cacheStore c k v2) k = some v) ∧
    (∀ e : Engine, validOutputs ([] : List String) = true →
      cacheLookup e.cache (mkKey msgApp msgArgs []) = none →
      invoke e msgApp msgArgs [] =
        .ok ({ e with tasks := e.tasks ++ [pendingTask msgApp msgArgs []] },
          e.tasks.length) ∧
      (pendingTask msgApp msgArgs []).status = .pending ∧
      (pendingTask msgApp msgArgs []).runCount = 0) ∧
    mkKey msgApp msgArgs [] ≠ mkKey msgApp [Arg.lit (.vstr "Hello World!")] [] := by
  have h := cache_key_deterministic msgApp msgApp msgArgs
    [Arg.lit (.vstr "Hello World!")] [] []
  refine ⟨h.1, h.2.1, h.2.2, fun heq => ?_⟩
  have h2 := (h.1.mp heq).2.2.1
  exact absurd h2 (by decide)

/-- Witness for C9 at the two notebook configurations. -/
theorem elastic_target_bounded_witness :
    (3 : Nat) ≤ targetBlocks 3 7 (1 / 2) 9 ∧
    targetBlocks 3 7 (1 / 2) 9 ≤ 7 ∧
    targetBlocks 0 10 1 10 = 10 ∧
    targetBlocks 0 10 (1 / 10) 10 = 1 ∧
    targetBlocks 0 10 (1 / 10) 10 < targetBlocks 0 10 1 10 :=
  elastic_target_bounded 3 7 (1 / 2) 9 (by norm_num) (by norm_num)
    (by norm_num)

/-- Witness for C10 at the completed `save` invocation: its result equals
its plain body applied to the resolved value of the `generate` future. -/
theorem completed_result_witness :
    initOk wE0 = true ∧ saveDone.status = Status.completed ∧
    (∃ vals v, resolveArgs wE6.tasks saveDone.args = some vals ∧
      saveDone.body vals = some v ∧ saveDone.resFut = .resolvedOk v ∧
      (∀ a ∈ saveDone.args, ∃ w, resolveArg wE6.tasks a = some w)) :=
  ⟨rfl, rfl, completed_result_is_body_on_resolved_args wE0 wE6 1 saveDone
    rfl wReach6 rfl rfl⟩

end ParslModel
